import Mathlib

/-!
Shallow embedding of the pomodorust timer/task state machine
(src/app.rs, src/settings.rs, and the tick loop of src/main.rs).

Durations are modelled as natural numbers of seconds; `std::time::Duration`
is non-negative and `checked_sub` returns `None` exactly when the
subtrahend exceeds the value, which is mirrored by an explicit comparison.
Wall-clock timestamps (`Utc::now()`) are modelled as a `Nat` parameter
passed to the operations that read the clock.  Rust operations whose code
can panic (indexing `self.tasks[index]` or `Vec::swap` out of bounds,
`len() - 1` underflow) return `Option`, with `none` for the panic.
-/

namespace Pomodorust

/-- One task, mirroring `struct Task` in src/app.rs. -/
structure Task where
  name : String
  completed : Bool
  pomodoros : Nat
  timeSpent : Nat
  creationDate : Nat
  completionDate : Option Nat
deriving DecidableEq, Repr

/-- `Task::new` in src/app.rs; `now` models `Utc::now()`. -/
def Task.new (name : String) (now : Nat) : Task :=
  { name := name
    completed := false
    pomodoros := 0
    timeSpent := 0
    creationDate := now
    completionDate := none }

/-- `enum Mode` in src/app.rs. -/
inductive Mode where
  | Pomodoro
  | ShortBreak
  | LongBreak
deriving DecidableEq, Repr

/-- `enum TimerState` in src/app.rs. -/
inductive TimerState where
  | Paused
  | Running
deriving DecidableEq, Repr

/-- `enum InputMode` in src/app.rs. -/
inductive InputMode where
  | Normal
  | Editing
deriving DecidableEq, Repr

/-- `enum ColorTheme` in src/settings.rs. -/
inductive ColorTheme where
  | Default
  | Dracula
  | Solarized
  | Nord
deriving DecidableEq, Repr

/-- `struct Settings` in src/settings.rs (durations in seconds). -/
structure Settings where
  pomodoroDuration : Nat
  shortBreakDuration : Nat
  longBreakDuration : Nat
  theme : ColorTheme
  desktopNotifications : Bool
deriving DecidableEq, Repr

/-- `impl Default for Settings` in src/settings.rs. -/
def Settings.default : Settings :=
  { pomodoroDuration := 25 * 60
    shortBreakDuration := 5 * 60
    longBreakDuration := 15 * 60
    theme := ColorTheme.Default
    desktopNotifications := true }

/-- `Mode::duration` in src/app.rs. -/
def Mode.duration : Mode → Settings → Nat
  | .Pomodoro, s => s.pomodoroDuration
  | .ShortBreak, s => s.shortBreakDuration
  | .LongBreak, s => s.longBreakDuration

/-- `struct App` in src/app.rs, restricted to the fields the state
machine reads and writes (view bookkeeping and the quit flag are
render/driver plumbing with no effect on these operations). -/
structure App where
  mode : Mode
  state : TimerState
  timeRemaining : Nat
  pomodorosCompletedTotal : Nat
  tasks : List Task
  activeTaskIndex : Option Nat
  inputMode : InputMode
  currentInput : String
  completedTaskListState : Option Nat
  settings : Settings
  settingsSelection : Nat
deriving DecidableEq, Repr

/-- `impl Default for App` in src/app.rs. -/
def App.default : App :=
  { mode := Mode.Pomodoro
    state := TimerState.Paused
    timeRemaining := Settings.default.pomodoroDuration
    pomodorosCompletedTotal := 0
    tasks := []
    activeTaskIndex := none
    inputMode := InputMode.Normal
    currentInput := ""
    completedTaskListState := none
    settings := Settings.default
    settingsSelection := 0 }

/-- `Vec::get_mut` followed by a field update: modifies the element at
the given index, a no-op when the index is out of bounds. -/
def modifyTaskAt (f : Task → Task) : List Task → Nat → List Task
  | [], _ => []
  | t :: ts, 0 => f t :: ts
  | t :: ts, n + 1 => t :: modifyTaskAt f ts n

/-- `Vec::swap` on two in-bounds indices (callers establish the bounds). -/
def swapAt (l : List Task) (i j : Nat) : List Task :=
  match l.get? i, l.get? j with
  | some a, some b => (l.set i b).set j a
  | _, _ => l

/-- `App::toggle_timer` in src/app.rs. `self.tasks[index]` panics when
the active index is out of bounds, modelled by `none`. -/
def App.toggleTimer (s : App) : Option App :=
  match s.activeTaskIndex with
  | none => some s
  | some i =>
    match s.tasks.get? i with
    | none => none
    | some t =>
      if !t.completed then
        some { s with state := match s.state with
                               | .Paused => .Running
                               | .Running => .Paused }
      else
        some s

/-- `App::reset_timer` in src/app.rs. -/
def App.resetTimer (s : App) : App :=
  { s with state := TimerState.Paused
           timeRemaining := s.mode.duration s.settings }

/-- `App::next_mode` in src/app.rs; returns the previous mode together
with the new state.  The final `!self.tasks[index].completed` check
panics when the active index is out of bounds, modelled by `none`. -/
def App.nextMode (s : App) : Option (Mode × App) :=
  let previousMode := s.mode
  let s1 :=
    if s.mode = Mode.Pomodoro then
      let total := s.pomodorosCompletedTotal + 1
      let tasks :=
        match s.activeTaskIndex with
        | some i => modifyTaskAt (fun t => { t with pomodoros := t.pomodoros + 1 }) s.tasks i
        | none => s.tasks
      { s with pomodorosCompletedTotal := total
               tasks := tasks
               mode := if total % 4 = 0 then Mode.LongBreak else Mode.ShortBreak }
    else
      { s with mode := Mode.Pomodoro }
  let s2 := s1.resetTimer
  match s2.activeTaskIndex with
  | none => some (previousMode, s2)
  | some i =>
    match s2.tasks.get? i with
    | none => none
    | some t =>
      if !t.completed then
        some (previousMode, { s2 with state := TimerState.Running })
      else
        some (previousMode, s2)

/-- `App::set_mode` in src/app.rs. -/
def App.setMode (m : Mode) (s : App) : App :=
  App.resetTimer { s with mode := m }

/-- `App::submit_task` in src/app.rs; `now` models `Utc::now()` inside
`Task::new`. -/
def App.submitTask (now : Nat) (s : App) : App :=
  let s1 :=
    if s.currentInput = "" then
      s
    else
      let tasks := s.tasks ++ [Task.new s.currentInput now]
      { s with tasks := tasks
               currentInput := ""
               activeTaskIndex := if tasks.length = 1 then some 0 else s.activeTaskIndex }
  { s1 with inputMode := InputMode.Normal }

/-- `App::complete_active_task` in src/app.rs; `now` models `Utc::now()`. -/
def App.completeActiveTask (now : Nat) (s : App) : App :=
  match s.activeTaskIndex with
  | none => s
  | some i =>
    match s.tasks.get? i with
    | none => s
    | some t =>
      if !t.completed then
        let t1 := { t with completed := true, completionDate := some now }
        App.resetTimer { s with tasks := s.tasks.set i t1, state := TimerState.Paused }
      else
        let t1 := { t with completed := false, completionDate := none }
        { s with tasks := s.tasks.set i t1 }

/-- The indices produced by
`tasks.iter().enumerate().filter(|(_, t)| !t.completed).map(|(i, _)| i)`. -/
def uncompletedIndices (tasks : List Task) : List Nat :=
  (tasks.enum.filter (fun p => !p.2.completed)).map Prod.fst

/-- The indices produced by
`tasks.iter().enumerate().filter(|(_, t)| t.completed).map(|(i, _)| i)`. -/
def completedIndices (tasks : List Task) : List Nat :=
  (tasks.enum.filter (fun p => p.2.completed)).map Prod.fst

/-- `App::next_task` in src/app.rs. -/
def App.nextTask (s : App) : App :=
  let u := uncompletedIndices s.tasks
  if u.isEmpty then
    { s with activeTaskIndex := none }
  else
    let currentSelection := s.activeTaskIndex.getD 0
    let nextIndexInUncompleted :=
      match u.findIdx? (fun i => i == currentSelection) with
      | none => 0
      | some i => (i + 1) % u.length
    { s with activeTaskIndex := some (u.getD nextIndexInUncompleted 0) }

/-- `App::previous_task` in src/app.rs. -/
def App.previousTask (s : App) : App :=
  let u := uncompletedIndices s.tasks
  if u.isEmpty then
    { s with activeTaskIndex := none }
  else
    let currentSelection := s.activeTaskIndex.getD 0
    let currentPos := (u.findIdx? (fun i => i == currentSelection)).getD 0
    let nextIndexInUncompleted :=
      if currentPos = 0 then u.length - 1 else currentPos - 1
    { s with activeTaskIndex := some (u.getD nextIndexInUncompleted 0) }

/-- `App::move_active_task_up` in src/app.rs.  `Vec::swap` panics when
`index` is out of bounds, modelled by `none`. -/
def App.moveActiveTaskUp (s : App) : Option App :=
  match s.activeTaskIndex with
  | none => some s
  | some i =>
    if i > 0 then
      if i < s.tasks.length then
        some { s with tasks := swapAt s.tasks i (i - 1), activeTaskIndex := some (i - 1) }
      else
        none
    else
      some s

/-- `App::move_active_task_down` in src/app.rs.  With an empty task list
`self.tasks.len() - 1` underflows and `Vec::swap` goes out of bounds,
a panic in either compile profile, modelled by `none`. -/
def App.moveActiveTaskDown (s : App) : Option App :=
  match s.activeTaskIndex with
  | none => some s
  | some i =>
    if s.tasks.length = 0 then
      none
    else if i < s.tasks.length - 1 then
      some { s with tasks := swapAt s.tasks i (i + 1), activeTaskIndex := some (i + 1) }
    else
      some s

/-- `App::next_completed_task` in src/app.rs. -/
def App.nextCompletedTask (s : App) : App :=
  let completedCount := (s.tasks.filter (fun t => t.completed)).length
  if completedCount = 0 then
    s
  else
    let i := match s.completedTaskListState with
             | none => 0
             | some i => (i + 1) % completedCount
    { s with completedTaskListState := some i }

/-- `App::previous_completed_task` in src/app.rs. -/
def App.previousCompletedTask (s : App) : App :=
  let completedCount := (s.tasks.filter (fun t => t.completed)).length
  if completedCount = 0 then
    s
  else
    let i := match s.completedTaskListState with
             | none => 0
             | some i => if i = 0 then completedCount - 1 else i - 1
    { s with completedTaskListState := some i }

/-- `App::delete_selected_completed_task` in src/app.rs. -/
def App.deleteSelectedCompletedTask (s : App) : App :=
  match s.completedTaskListState with
  | none => s
  | some selectedIndex =>
    match (completedIndices s.tasks).get? selectedIndex with
    | none => s
    | some taskIndexToDelete =>
      let active :=
        match s.activeTaskIndex with
        | some activeIdx =>
          if activeIdx > taskIndexToDelete then some (activeIdx - 1) else some activeIdx
        | none => none
      { s with tasks := s.tasks.eraseIdx taskIndexToDelete
               activeTaskIndex := active
               completedTaskListState := none }

/-- `App::next_setting` in src/app.rs. -/
def App.nextSetting (s : App) : App :=
  { s with settingsSelection := (s.settingsSelection + 1) % 5 }

/-- `App::previous_setting` in src/app.rs. -/
def App.previousSetting (s : App) : App :=
  if s.settingsSelection > 0 then
    { s with settingsSelection := s.settingsSelection - 1 }
  else
    { s with settingsSelection := 4 }

/-- `App::modify_setting` in src/app.rs.  The `i64` arithmetic
`(current as i64 + delta).max(1)` is mirrored on `Int`. -/
def App.modifySetting (increase : Bool) (s : App) : App :=
  let delta : Int := if increase then 1 else -1
  let s1 :=
    match s.settingsSelection with
    | 0 =>
      let current : Int := (s.settings.pomodoroDuration / 60 : Nat)
      let new := max (current + delta) 1
      { s with settings := { s.settings with pomodoroDuration := new.toNat * 60 } }
    | 1 =>
      let current : Int := (s.settings.shortBreakDuration / 60 : Nat)
      let new := max (current + delta) 1
      { s with settings := { s.settings with shortBreakDuration := new.toNat * 60 } }
    | 2 =>
      let current : Int := (s.settings.longBreakDuration / 60 : Nat)
      let new := max (current + delta) 1
      { s with settings := { s.settings with longBreakDuration := new.toNat * 60 } }
    | 3 =>
      { s with settings := { s.settings with theme :=
          match s.settings.theme with
          | ColorTheme.Default => ColorTheme.Dracula
          | ColorTheme.Dracula => ColorTheme.Solarized
          | ColorTheme.Solarized => ColorTheme.Nord
          | ColorTheme.Nord => ColorTheme.Default } }
    | 4 =>
      { s with settings := { s.settings with desktopNotifications := !s.settings.desktopNotifications } }
    | _ => s
  if s1.state = TimerState.Paused then s1.resetTimer else s1

/-- The timer-advance block of `run_app` in src/main.rs (the body guarded
by `last_tick.elapsed() >= tick_rate`): returns the optional
"session finished" mode next to the new state; `none` models the panic
that `next_mode` can raise. -/
def App.tick (elapsed : Nat) (s : App) : Option (Option Mode × App) :=
  match s.state with
  | TimerState.Paused => some (none, s)
  | TimerState.Running =>
    if elapsed ≤ s.timeRemaining then
      let s1 := { s with timeRemaining := s.timeRemaining - elapsed }
      let s2 :=
        match s1.activeTaskIndex with
        | some i =>
          { s1 with tasks := modifyTaskAt (fun t => { t with timeSpent := t.timeSpent + elapsed }) s1.tasks i }
        | none => s1
      some (none, s2)
    else
      (App.nextMode { s with timeRemaining := 0 }).map (fun r => (some r.1, r.2))

/-- The driver-facing operations (spec §6): the key handlers in
src/main.rs reach exactly these `App` methods; `addTask` models typing a
name in editing mode and pressing Enter (`submit_task`). -/
inductive Op where
  | tick (elapsed : Nat)
  | toggle
  | reset
  | setMode (m : Mode)
  | addTask (name : String) (now : Nat)
  | complete (now : Nat)
  | nextTask
  | previousTask
  | moveUp
  | moveDown
  | nextCompleted
  | previousCompleted
  | deleteCompleted
  | nextSetting
  | previousSetting
  | modifySetting (increase : Bool)
deriving DecidableEq, Repr

/-- One driver-facing operation applied to the state; `none` models a
panic of the underlying Rust code. -/
def step : Op → App → Option App
  | .tick e, s => (s.tick e).map Prod.snd
  | .toggle, s => s.toggleTimer
  | .reset, s => some s.resetTimer
  | .setMode m, s => some (s.setMode m)
  | .addTask name now, s => some (App.submitTask now { s with currentInput := name })
  | .complete now, s => some (s.completeActiveTask now)
  | .nextTask, s => some s.nextTask
  | .previousTask, s => some s.previousTask
  | .moveUp, s => s.moveActiveTaskUp
  | .moveDown, s => s.moveActiveTaskDown
  | .nextCompleted, s => some s.nextCompletedTask
  | .previousCompleted, s => some s.previousCompletedTask
  | .deleteCompleted, s => some s.deleteSelectedCompletedTask
  | .nextSetting, s => some s.nextSetting
  | .previousSetting, s => some s.previousSetting
  | .modifySetting b, s => some (s.modifySetting b)

/-- A sequence of driver-facing operations. -/
def runOps : List Op → App → Option App
  | [], s => some s
  | op :: ops, s => (step op s).bind (runOps ops)

/-! ### Helper lemmas about the list combinators used by the operations -/

theorem length_modifyTaskAt (f : Task → Task) (l : List Task) (i : Nat) :
    (modifyTaskAt f l i).length = l.length := by
  induction l generalizing i with
  | nil => rfl
  | cons t ts ih =>
    cases i with
    | zero => rfl
    | succ n => simp [modifyTaskAt, ih]

theorem get?_modifyTaskAt_self (f : Task → Task) (l : List Task) (i : Nat) :
    (modifyTaskAt f l i).get? i = (l.get? i).map f := by
  induction l generalizing i with
  | nil => rfl
  | cons t ts ih =>
    cases i with
    | zero => rfl
    | succ n => simpa [modifyTaskAt] using ih n

theorem length_swapAt (l : List Task) (i j : Nat) :
    (swapAt l i j).length = l.length := by
  unfold swapAt
  cases l.get? i <;> cases l.get? j <;> simp

theorem get?_some_lt {α : Type} {l : List α} {i : Nat} {x : α}
    (h : l.get? i = some x) : i < l.length := by
  by_contra hc
  rw [List.get?_eq_none.mpr (by omega)] at h
  exact Option.noConfusion h

theorem findIdx?_lt_length {p : Nat → Bool} {l : List Nat} {i : Nat}
    (h : List.findIdx? p l = some i) : i < l.length := by
  induction l generalizing i with
  | nil => simp [List.findIdx?] at h
  | cons a l ih =>
    rw [List.findIdx?_cons, List.findIdx?_succ] at h
    split at h
    · cases h
      simp
    · cases h2 : List.findIdx? p l with
      | none => rw [h2] at h; simp at h
      | some j =>
        rw [h2] at h
        simp only [Option.map_some'] at h
        cases h
        have := ih h2
        simp only [List.length_cons]
        omega

theorem findIdx?_beq_of_not_mem {l : List Nat} {a : Nat} (h : a ∉ l) :
    List.findIdx? (fun i => i == a) l = none := by
  rw [List.findIdx?_eq_none_iff]
  intro x hx
  simp only [beq_eq_false_iff_ne, ne_eq]
  rintro rfl
  exact h hx

theorem getD_mem_of_lt {u : List Nat} {k : Nat} (h : k < u.length) :
    u.getD k 0 ∈ u := by
  cases h2 : u.get? k with
  | none => exact absurd (List.get?_eq_none.mp h2) (by omega)
  | some x =>
    have hx := List.get?_mem h2
    have h2g : u[k]? = some x := by simpa [List.get?_eq_getElem?] using h2
    simpa [List.getD_eq_getD_get?, List.get?_eq_getElem?, h2g] using hx

theorem pairwise_lt_enumFilterFst (p : Nat × Task → Bool) (tasks : List Task) :
    ((tasks.enum.filter p).map Prod.fst).Pairwise (· < ·) := by
  have h1 : (tasks.enum.map Prod.fst).Pairwise (· < ·) := by
    rw [List.enum_map_fst]
    exact List.pairwise_lt_range _
  have h2 : tasks.enum.Pairwise (fun a b => a.1 < b.1) := List.pairwise_map.mp h1
  refine List.pairwise_map.mpr (List.Pairwise.sublist ?_ h2)
  exact List.filter_sublist _

theorem pairwise_lt_uncompletedIndices (tasks : List Task) :
    (uncompletedIndices tasks).Pairwise (· < ·) :=
  pairwise_lt_enumFilterFst _ tasks

theorem mem_uncompletedIndices {tasks : List Task} {i : Nat} :
    i ∈ uncompletedIndices tasks ↔
      ∃ t, tasks.get? i = some t ∧ t.completed = false := by
  unfold uncompletedIndices
  simp only [List.mem_map, List.mem_filter]
  constructor
  · rintro ⟨⟨j, t⟩, ⟨hmem, hc⟩, rfl⟩
    refine ⟨t, ?_, by simpa using hc⟩
    have := List.mk_mem_enum_iff_getElem?.mp hmem
    simpa [List.get?_eq_getElem?] using this
  · rintro ⟨t, hget, hc⟩
    refine ⟨(i, t), ⟨?_, by simp [hc]⟩, rfl⟩
    exact List.mk_mem_enum_iff_getElem?.mpr (by simpa [← List.get?_eq_getElem?] using hget)

theorem mem_completedIndices {tasks : List Task} {i : Nat} :
    i ∈ completedIndices tasks ↔
      ∃ t, tasks.get? i = some t ∧ t.completed = true := by
  unfold completedIndices
  simp only [List.mem_map, List.mem_filter]
  constructor
  · rintro ⟨⟨j, t⟩, ⟨hmem, hc⟩, rfl⟩
    refine ⟨t, ?_, by simpa using hc⟩
    have := List.mk_mem_enum_iff_getElem?.mp hmem
    simpa [List.get?_eq_getElem?] using this
  · rintro ⟨t, hget, hc⟩
    refine ⟨(i, t), ⟨?_, by simp [hc]⟩, rfl⟩
    exact List.mk_mem_enum_iff_getElem?.mpr (by simpa [← List.get?_eq_getElem?] using hget)

theorem mem_uncompletedIndices_lt {tasks : List Task} {i : Nat}
    (h : i ∈ uncompletedIndices tasks) : i < tasks.length := by
  obtain ⟨t, hget, -⟩ := mem_uncompletedIndices.mp h
  exact get?_some_lt hget

theorem mem_completedIndices_lt {tasks : List Task} {i : Nat}
    (h : i ∈ completedIndices tasks) : i < tasks.length := by
  obtain ⟨t, hget, -⟩ := mem_completedIndices.mp h
  exact get?_some_lt hget

theorem findIdx?_beq_getD {u : List Nat} (hp : u.Pairwise (· < ·)) {k : Nat}
    (hk : k < u.length) :
    List.findIdx? (fun i => i == u.getD k 0) u = some k := by
  induction u generalizing k with
  | nil => simp at hk
  | cons x rest ih =>
    rw [List.findIdx?_cons, List.findIdx?_succ]
    cases k with
    | zero => simp
    | succ n =>
      have hn : n < rest.length := by simpa using hk
      have hx : x < rest.getD n 0 := by
        have hmem : rest.getD n 0 ∈ rest := getD_mem_of_lt hn
        exact (List.pairwise_cons.mp hp).1 _ hmem
      have hbeq : (x == rest.getD (n + 1 - 1) 0) = false := by
        simp only [Nat.add_sub_cancel, beq_eq_false_iff_ne, ne_eq]
        omega
      simp only [List.getD_cons_succ] at hbeq ⊢
      rw [if_neg (by simp at hbeq ⊢; omega)]
      rw [ih (List.pairwise_cons.mp hp).2 hn]
      rfl

/-! ### Structural lemmas about next_mode -/

theorem nextMode_frame {s : App} {m : Mode} {s' : App}
    (h : s.nextMode = some (m, s')) :
    m = s.mode ∧
    s'.activeTaskIndex = s.activeTaskIndex ∧
    s'.tasks.length = s.tasks.length ∧
    (s.mode = Mode.Pomodoro →
      s'.pomodorosCompletedTotal = s.pomodorosCompletedTotal + 1) ∧
    (s.mode ≠ Mode.Pomodoro →
      s'.pomodorosCompletedTotal = s.pomodorosCompletedTotal) := by
  unfold App.nextMode at h
  by_cases hm : s.mode = Mode.Pomodoro <;>
    simp only [hm, if_true, if_false, reduceIte, App.resetTimer] at h
  · cases hact : s.activeTaskIndex with
    | none =>
      simp only [hact] at h
      cases h
      simp [hact, hm, length_modifyTaskAt]
    | some i =>
      simp only [hact] at h
      cases h2 : (modifyTaskAt (fun t => { t with pomodoros := t.pomodoros + 1 }) s.tasks i).get? i with
      | none =>
        simp only [h2] at h
        exact Option.noConfusion h
      | some t =>
        simp only [h2] at h
        by_cases hc : t.completed <;> simp only [hc] at h <;> cases h <;>
          simp [hact, hm, length_modifyTaskAt]
  · cases hact : s.activeTaskIndex with
    | none =>
      simp only [hact] at h
      cases h
      simp [hact, hm]
    | some i =>
      simp only [hact] at h
      cases h2 : s.tasks.get? i with
      | none =>
        simp only [h2] at h
        exact Option.noConfusion h
      | some t =>
        simp only [h2] at h
        by_cases hc : t.completed <;> simp only [hc] at h <;> cases h <;>
          simp [hact, hm]

theorem nextMode_timeSpent {s : App} (i : Nat) (t : Task)
    (hact : s.activeTaskIndex = some i) (ht : s.tasks.get? i = some t) :
    ∃ s', s.nextMode = some (s.mode, s') ∧
      ∃ t', s'.tasks.get? i = some t' ∧ t'.timeSpent = t.timeSpent := by
  obtain ⟨m, st, tr, tot, tasks, act, im, ci, ctls, stg, sel⟩ := s
  simp only at hact ht ⊢
  subst hact
  by_cases hm : m = Mode.Pomodoro
  · subst hm
    have hmod : (modifyTaskAt (fun t => { t with pomodoros := t.pomodoros + 1 }) tasks i).get? i
        = some { t with pomodoros := t.pomodoros + 1 } := by
      rw [get?_modifyTaskAt_self, ht]
      rfl
    by_cases hc : t.completed <;>
      simp only [App.nextMode, App.resetTimer, reduceIte, hmod, hc] <;>
      exact ⟨_, rfl, _, hmod, rfl⟩
  · by_cases hc : t.completed <;>
      simp only [App.nextMode, App.resetTimer, if_neg hm, ht, hc] <;>
      exact ⟨_, rfl, _, ht, rfl⟩

/-! ### Projection lemmas: which operations leave the session total alone -/

theorem total_nextTask (s : App) :
    s.nextTask.pomodorosCompletedTotal = s.pomodorosCompletedTotal := by
  unfold App.nextTask
  dsimp only
  split <;> rfl

theorem total_previousTask (s : App) :
    s.previousTask.pomodorosCompletedTotal = s.pomodorosCompletedTotal := by
  unfold App.previousTask
  dsimp only
  split <;> rfl

theorem total_submitTask (now : Nat) (s : App) :
    (App.submitTask now s).pomodorosCompletedTotal = s.pomodorosCompletedTotal := by
  unfold App.submitTask
  dsimp only
  split <;> rfl

theorem total_completeActiveTask (now : Nat) (s : App) :
    (s.completeActiveTask now).pomodorosCompletedTotal = s.pomodorosCompletedTotal := by
  unfold App.completeActiveTask
  dsimp only
  repeat' split
  all_goals rfl

theorem total_deleteSelectedCompletedTask (s : App) :
    s.deleteSelectedCompletedTask.pomodorosCompletedTotal = s.pomodorosCompletedTotal := by
  unfold App.deleteSelectedCompletedTask
  dsimp only
  repeat' split
  all_goals rfl

theorem total_nextCompletedTask (s : App) :
    s.nextCompletedTask.pomodorosCompletedTotal = s.pomodorosCompletedTotal := by
  unfold App.nextCompletedTask
  dsimp only
  repeat' split
  all_goals rfl

theorem total_previousCompletedTask (s : App) :
    s.previousCompletedTask.pomodorosCompletedTotal = s.pomodorosCompletedTotal := by
  unfold App.previousCompletedTask
  dsimp only
  repeat' split
  all_goals rfl

theorem total_previousSetting (s : App) :
    s.previousSetting.pomodorosCompletedTotal = s.pomodorosCompletedTotal := by
  unfold App.previousSetting
  split <;> rfl

theorem total_modifySetting (b : Bool) (s : App) :
    (s.modifySetting b).pomodorosCompletedTotal = s.pomodorosCompletedTotal := by
  unfold App.modifySetting
  dsimp only
  repeat' split
  all_goals rfl

/-! ### Concrete states used by counterexamples and witnesses -/

/-- Scenario B of the spec: one fresh active task, Pomodoro mode, timer
running with the full default 25-minute duration remaining. -/
def scenarioB : App :=
  { App.default with
      tasks := [Task.new "a" 0]
      activeTaskIndex := some 0
      state := TimerState.Running
      timeRemaining := 1500 }

/-- A running state with one active task and 10 seconds remaining, used
to exercise the session-finishing tick. -/
def tickFinishApp : App :=
  { App.default with
      tasks := [Task.new "a" 0]
      activeTaskIndex := some 0
      state := TimerState.Running
      timeRemaining := 10 }

/-- A task with a chosen name and completion flag. -/
def mkTask (n : String) (c : Bool) : Task :=
  { Task.new n 0 with completed := c }

/-- Three tasks of which the first is completed, with the (stale) active
selection still on the completed first task. -/
def staleSelectionApp : App :=
  { App.default with
      tasks := [mkTask "x" true, mkTask "y" false, mkTask "z" false]
      activeTaskIndex := some 0 }

/-! ### C8 -/

/-- C8: `reset_timer` is idempotent with respect to `time_remaining`:
for every application state, resetting twice yields the same
`time_remaining` as resetting once — namely the configured duration of
the current mode — and the timer is left `Paused`. -/
theorem c8_reset_idempotent (s : App) :
    (s.resetTimer.resetTimer).timeRemaining = s.resetTimer.timeRemaining ∧
    s.resetTimer.timeRemaining = s.mode.duration s.settings ∧
    s.resetTimer.state = TimerState.Paused := by
  simp [App.resetTimer]

/-! ### C9 -/

/-- C9: every `modify_setting` call made while the timer is `Paused`
resets `time_remaining` to the full configured duration of the current
mode — also when the modified setting is the color theme (selection 3)
or the desktop-notifications flag (selection 4), which change no
duration — so partial countdown progress of a paused timer is
discarded by any settings change. -/
theorem c9_modify_setting_paused_resets (s : App) (b : Bool)
    (h : s.state = TimerState.Paused) :
    (s.modifySetting b).timeRemaining = s.mode.duration (s.modifySetting b).settings ∧
    (s.modifySetting b).state = TimerState.Paused ∧
    (s.settingsSelection = 3 ∨ s.settingsSelection = 4 →
      (s.modifySetting b).settings.pomodoroDuration = s.settings.pomodoroDuration ∧
      (s.modifySetting b).settings.shortBreakDuration = s.settings.shortBreakDuration ∧
      (s.modifySetting b).settings.longBreakDuration = s.settings.longBreakDuration ∧
      (s.modifySetting b).timeRemaining = s.mode.duration s.settings) := by
  obtain ⟨m, st, tr, tot, tasks, act, im, ci, ctls, stg, sel⟩ := s
  simp only at h
  subst h
  cases m <;>
    rcases sel with _ | _ | _ | _ | _ | sel <;>
      simp [App.modifySetting, App.resetTimer, Mode.duration]

/-- C9 witness: the theorem applied to the default state with the theme
setting selected and a partially elapsed countdown. -/
theorem c9_witness :
    ({ App.default with settingsSelection := 3, timeRemaining := 77 } : App).state =
      TimerState.Paused ∧
    (App.modifySetting true { App.default with settingsSelection := 3, timeRemaining := 77 }).timeRemaining =
      Mode.duration Mode.Pomodoro
        (App.modifySetting true { App.default with settingsSelection := 3, timeRemaining := 77 }).settings := by
  refine ⟨rfl, ?_⟩
  exact (c9_modify_setting_paused_resets _ true rfl).1

/-! ### C5 -/

/-- C5 counterexample: the whitespace-only name `" "` is not rejected —
`submit_task` appends a task for it, where the claim demands a no-op. -/
theorem c5_counterexample :
    (App.submitTask 0 { App.default with currentInput := " " }).tasks.length = 1 ∧
    (1 : Nat) ≠ 0 := by
  exact ⟨rfl, by decide⟩

/-- C5 amended: `submit_task` is a silent no-op on the task list exactly
for the empty input (whitespace-only names are accepted); for every
non-empty name it appends one task with default fields and sets
`active_task_index = Some(0)` exactly when the appended task is the
first task, leaving the index unchanged otherwise. -/
theorem c5_submit_task_amended (s : App) (now : Nat) :
    (s.currentInput = "" →
      (App.submitTask now s).tasks = s.tasks ∧
      (App.submitTask now s).activeTaskIndex = s.activeTaskIndex) ∧
    (s.currentInput ≠ "" →
      (App.submitTask now s).tasks = s.tasks ++ [Task.new s.currentInput now] ∧
      (Task.new s.currentInput now).completed = false ∧
      (Task.new s.currentInput now).pomodoros = 0 ∧
      (Task.new s.currentInput now).timeSpent = 0 ∧
      (s.tasks = [] → (App.submitTask now s).activeTaskIndex = some 0) ∧
      (s.tasks ≠ [] → (App.submitTask now s).activeTaskIndex = s.activeTaskIndex)) := by
  constructor
  · intro h
    simp [App.submitTask, h]
  · intro h
    refine ⟨by simp [App.submitTask, h], rfl, rfl, rfl, ?_, ?_⟩
    · intro ht
      simp [App.submitTask, h, ht]
    · intro ht
      have hlen : s.tasks.length ≠ 0 := fun hc => ht (List.length_eq_zero.mp hc)
      simp only [App.submitTask, h, if_neg h]
      simp [List.length_append, hlen]

/-- C5 witness: the amended theorem applied to the default state with a
non-empty input. -/
theorem c5_witness :
    ("x" : String) ≠ "" ∧
    (App.submitTask 0 { App.default with currentInput := "x" }).tasks = [Task.new "x" 0] ∧
    (App.submitTask 0 { App.default with currentInput := "x" }).activeTaskIndex = some 0 := by
  have hne : ({ App.default with currentInput := "x" } : App).currentInput ≠ "" := by decide
  have h := (c5_submit_task_amended { App.default with currentInput := "x" } 0).2 hne
  exact ⟨by decide, by simpa using h.1, h.2.2.2.2.1 rfl⟩

/-! ### C2 -/

/-- C2 counterexample: in Scenario B a single tick of exactly the
remaining 25 minutes does NOT complete the session: `checked_sub`
succeeds with zero, so the state stays in Pomodoro mode with no session
counted and no finish event, where the claim demands `ShortBreak` and a
count of 1. -/
theorem c2_counterexample :
    (scenarioB.tick 1500).map (fun r => r.2.mode) = some Mode.Pomodoro ∧
    (scenarioB.tick 1500).map (fun r => r.2.pomodorosCompletedTotal) = some 0 ∧
    (scenarioB.tick 1500).map (fun r => r.1) = some none ∧
    Mode.Pomodoro ≠ Mode.ShortBreak := by
  exact ⟨rfl, rfl, rfl, by decide⟩

/-- C2 amended: in Scenario B the session completes only on a tick whose
elapsed time strictly exceeds the remaining 25 minutes.  A tick of
exactly 25 minutes drives `time_remaining` to 0 but stays in Pomodoro
mode with the timer still running; a single tick with elapsed greater
than 25 minutes finishes the session: the finish event carries
`Pomodoro`, the mode becomes `ShortBreak`, the session total becomes 1,
the task's pomodoro count becomes 1, and the timer auto-resumes
`Running`. -/
theorem c2_amended (s : App) (t : Task) (e : Nat)
    (hmode : s.mode = Mode.Pomodoro)
    (hrun : s.state = TimerState.Running)
    (htasks : s.tasks = [t])
    (htc : t.completed = false)
    (htp : t.pomodoros = 0)
    (hact : s.activeTaskIndex = some 0)
    (htot : s.pomodorosCompletedTotal = 0)
    (hrem : s.timeRemaining = 1500)
    (hdur : s.settings.pomodoroDuration = 1500)
    (he : 1500 < e) :
    (∃ s1, s.tick 1500 = some (none, s1) ∧
      s1.mode = Mode.Pomodoro ∧ s1.timeRemaining = 0 ∧
      s1.pomodorosCompletedTotal = 0 ∧ s1.state = TimerState.Running) ∧
    (∃ s2, s.tick e = some (some Mode.Pomodoro, s2) ∧
      s2.mode = Mode.ShortBreak ∧
      s2.pomodorosCompletedTotal = 1 ∧
      (∃ t2, s2.tasks = [t2] ∧ t2.pomodoros = 1 ∧ t2.completed = false) ∧
      s2.state = TimerState.Running ∧
      s2.timeRemaining = s.settings.shortBreakDuration) := by
  obtain ⟨m, st, tr, tot, tasks, act, im, ci, ctls, stg, sel⟩ := s
  simp only at hmode hrun htasks hact htot hrem hdur
  subst hmode hrun htasks hact htot hrem
  have hc : ¬ (e ≤ 1500) := by omega
  refine ⟨⟨_, by simp [App.tick, modifyTaskAt]; rfl, rfl, rfl, rfl, rfl⟩,
    ⟨_, by simp [App.tick, hc, App.nextMode, App.resetTimer, modifyTaskAt, Mode.duration, htc]; rfl,
      rfl, rfl, ⟨_, rfl, by simp [htp], rfl⟩, rfl, rfl⟩⟩

/-- C2 witness: the amended theorem applied to the concrete Scenario B
state with a tick of 25 minutes and one second. -/
theorem c2_witness :
    (1500 : Nat) < 1501 ∧
    ∃ s2, scenarioB.tick 1501 = some (some Mode.Pomodoro, s2) ∧
      s2.mode = Mode.ShortBreak ∧ s2.pomodorosCompletedTotal = 1 := by
  have h := (c2_amended scenarioB (Task.new "a" 0) 1501 rfl rfl rfl rfl rfl rfl rfl rfl
    rfl (by decide)).2
  obtain ⟨s2, h1, h2, h3, -⟩ := h
  exact ⟨by decide, s2, h1, h2, h3⟩

/-! ### C3 -/

/-- C3 counterexample: on the session-finishing tick (elapsed 11 with 10
remaining) the active task's `time_spent` stays 0 instead of increasing
by the elapsed 11 seconds. -/
theorem c3_counterexample :
    (App.tick 11 tickFinishApp).map (fun r => r.2.tasks.map Task.timeSpent) = some [0] ∧
    (0 : Nat) ≠ 0 + 11 := by
  exact ⟨rfl, by decide⟩

/-- C3 amended: while the timer is `Running` with an active task, a
tick adds the full elapsed duration to the active task's `time_spent`
exactly when `elapsed <= time_remaining`; on the session-finishing tick
(`elapsed > time_remaining`) the task's `time_spent` is unchanged. -/
theorem c3_amended (s : App) (e i : Nat) (t : Task)
    (hrun : s.state = TimerState.Running)
    (hact : s.activeTaskIndex = some i)
    (ht : s.tasks.get? i = some t) :
    (e ≤ s.timeRemaining →
      ∃ s', s.tick e = some (none, s') ∧
        ∃ t', s'.tasks.get? i = some t' ∧ t'.timeSpent = t.timeSpent + e) ∧
    (s.timeRemaining < e →
      ∃ fm s', s.tick e = some (some fm, s') ∧
        ∃ t', s'.tasks.get? i = some t' ∧ t'.timeSpent = t.timeSpent) := by
  constructor
  · intro hle
    obtain ⟨m, st, tr, tot, tasks, act, im, ci, ctls, stg, sel⟩ := s
    simp only at hrun hact ht hle
    subst hrun hact
    simp only [App.tick, if_pos hle]
    refine ⟨_, rfl, { t with timeSpent := t.timeSpent + e }, ?_, rfl⟩
    rw [get?_modifyTaskAt_self, ht]
    rfl
  · intro hlt
    have hc : ¬ (e ≤ s.timeRemaining) := by omega
    have hspent := nextMode_timeSpent (s := { s with timeRemaining := 0 }) i t hact ht
    obtain ⟨s', hnm, t', ht', hts⟩ := hspent
    obtain ⟨m, st, tr, tot, tasks, act, im, ci, ctls, stg, sel⟩ := s
    simp only at hrun hc hnm
    subst hrun
    simp only [App.tick, if_neg hc, hnm, Option.map_some']
    exact ⟨_, _, rfl, t', ht', hts⟩

/-- C3 witness: the amended theorem at the concrete 10-seconds-remaining
running state, with both a non-finishing and a finishing tick. -/
theorem c3_witness :
    ((3 : Nat) ≤ tickFinishApp.timeRemaining ∧
      ∃ s', tickFinishApp.tick 3 = some (none, s') ∧
        ∃ t', s'.tasks.get? 0 = some t' ∧ t'.timeSpent = (Task.new "a" 0).timeSpent + 3) ∧
    (tickFinishApp.timeRemaining < 11 ∧
      ∃ fm s', tickFinishApp.tick 11 = some (some fm, s') ∧
        ∃ t', s'.tasks.get? 0 = some t' ∧ t'.timeSpent = (Task.new "a" 0).timeSpent) := by
  constructor
  · exact ⟨by decide,
      (c3_amended tickFinishApp 3 0 (Task.new "a" 0) rfl rfl rfl).1 (by decide)⟩
  · exact ⟨by decide,
      (c3_amended tickFinishApp 11 0 (Task.new "a" 0) rfl rfl rfl).2 (by decide)⟩

/-! ### C6 -/

/-- C6 counterexample: with the stale selection on the completed task 0
and uncompleted tasks at indices 1 and 2, `previous_task` resets the
selection to the LAST uncompleted task (index 2), not the first
(index 1) as the claim demands. -/
theorem c6_counterexample :
    uncompletedIndices staleSelectionApp.tasks = [1, 2] ∧
    staleSelectionApp.previousTask.activeTaskIndex = some 2 ∧
    (2 : Nat) ≠ 1 := by
  exact ⟨rfl, rfl, by decide⟩

/-! ### C1 -/

/-- C1 counterexample: after adding one task and toggling it complete,
`active_task_index` still points at the task (index 0) although its
`completed` flag is now true, violating the claimed invariant right
after `complete_active_task`. -/
theorem c1_counterexample :
    (runOps [Op.addTask "a" 0, Op.complete 1] App.default).map
        (fun s => s.activeTaskIndex) = some (some 0) ∧
    (runOps [Op.addTask "a" 0, Op.complete 1] App.default).map
        (fun s => s.tasks.map Task.completed) = some [true] ∧
    true ≠ false := by
  exact ⟨rfl, rfl, by decide⟩

/-! ### C10 -/

/-- The spec-side predicate of claim C10: the only driver-facing
operation that invokes `next_mode` while the current mode is `Pomodoro`
is a tick that finishes a running Pomodoro session (its elapsed time
exceeds `time_remaining`). -/
def opFinishesPomodoro : Op → App → Prop
  | Op.tick e, s =>
    s.state = TimerState.Running ∧ s.timeRemaining < e ∧ s.mode = Mode.Pomodoro
  | _, _ => False

/-- C10: `pomodoros_completed_total` is monotonically non-decreasing
across every driver-facing operation; it changes by at most 1, and it
increases by exactly 1 precisely when the operation invokes `next_mode`
with the current mode `Pomodoro` (a tick finishing a running Pomodoro).
In particular `reset_timer` and `set_mode` leave it unchanged, since the
predicate is false for them. -/
theorem c10_total_monotone (op : Op) (s s' : App) (h : step op s = some s') :
    s.pomodorosCompletedTotal ≤ s'.pomodorosCompletedTotal ∧
    (s'.pomodorosCompletedTotal = s.pomodorosCompletedTotal ∨
      s'.pomodorosCompletedTotal = s.pomodorosCompletedTotal + 1) ∧
    (s'.pomodorosCompletedTotal = s.pomodorosCompletedTotal + 1 ↔
      opFinishesPomodoro op s) := by
  cases op with
  | tick e =>
    simp only [step] at h
    cases hst : s.state with
    | Paused =>
      simp only [App.tick, hst, Option.map_some'] at h
      cases h
      simp [opFinishesPomodoro, hst]
    | Running =>
      by_cases hle : e ≤ s.timeRemaining
      · simp only [App.tick, hst, if_pos hle] at h
        cases hact : s.activeTaskIndex <;> simp only [hact, Option.map_some'] at h <;>
          cases h <;>
          · simp [opFinishesPomodoro]
            omega
      · simp only [App.tick, hst, if_neg hle, Option.map_map] at h
        cases hnm : App.nextMode { s with state := TimerState.Running, timeRemaining := 0 } with
        | none =>
          rw [hnm] at h
          exact Option.noConfusion h
        | some r =>
          rw [hnm] at h
          simp only [Option.map_some', Function.comp] at h
          cases h
          have hf := nextMode_frame (show App.nextMode { s with state := TimerState.Running, timeRemaining := 0 } = some (r.1, r.2) from hnm)
          by_cases hm : s.mode = Mode.Pomodoro
          · have h1 := hf.2.2.2.1 hm
            simp only at h1
            refine ⟨by omega, Or.inr (by omega), ?_⟩
            simp only [opFinishesPomodoro]
            exact ⟨fun _ => ⟨hst, by omega, hm⟩, fun _ => by omega⟩
          · have h1 := hf.2.2.2.2 hm
            simp only at h1
            refine ⟨by omega, Or.inl (by omega), ?_⟩
            simp [opFinishesPomodoro, hm]
            omega
  | toggle =>
    simp only [step, App.toggleTimer] at h
    repeat' split at h
    all_goals cases h
    all_goals simp [opFinishesPomodoro]
  | reset =>
    simp only [step] at h
    cases h
    simp [opFinishesPomodoro, App.resetTimer]
  | setMode m =>
    simp only [step] at h
    cases h
    simp [opFinishesPomodoro, App.setMode, App.resetTimer]
  | addTask name now =>
    simp only [step] at h
    cases h
    rw [total_submitTask]
    simp [opFinishesPomodoro]
  | complete now =>
    simp only [step] at h
    cases h
    rw [total_completeActiveTask]
    simp [opFinishesPomodoro]
  | nextTask =>
    simp only [step] at h
    cases h
    rw [total_nextTask]
    simp [opFinishesPomodoro]
  | previousTask =>
    simp only [step] at h
    cases h
    rw [total_previousTask]
    simp [opFinishesPomodoro]
  | moveUp =>
    simp only [step, App.moveActiveTaskUp] at h
    repeat' split at h
    all_goals cases h
    all_goals simp [opFinishesPomodoro]
  | moveDown =>
    simp only [step, App.moveActiveTaskDown] at h
    repeat' split at h
    all_goals cases h
    all_goals simp [opFinishesPomodoro]
  | nextCompleted =>
    simp only [step] at h
    cases h
    rw [total_nextCompletedTask]
    simp [opFinishesPomodoro]
  | previousCompleted =>
    simp only [step] at h
    cases h
    rw [total_previousCompletedTask]
    simp [opFinishesPomodoro]
  | deleteCompleted =>
    simp only [step] at h
    cases h
    rw [total_deleteSelectedCompletedTask]
    simp [opFinishesPomodoro]
  | nextSetting =>
    simp only [step] at h
    cases h
    simp [opFinishesPomodoro, App.nextSetting]
  | previousSetting =>
    simp only [step] at h
    cases h
    rw [total_previousSetting]
    simp [opFinishesPomodoro]
  | modifySetting b =>
    simp only [step] at h
    cases h
    rw [total_modifySetting]
    simp [opFinishesPomodoro]

/-- C10 witness: the theorem applied to a `reset` on the default state,
whose total stays 0, and to a session-finishing tick on Scenario B,
whose total increases to 1. -/
theorem c10_witness :
    (∃ s', step Op.reset App.default = some s' ∧
      App.default.pomodorosCompletedTotal ≤ s'.pomodorosCompletedTotal) ∧
    (∃ s', step (Op.tick 1501) scenarioB = some s' ∧
      (s'.pomodorosCompletedTotal = scenarioB.pomodorosCompletedTotal + 1 ↔
        opFinishesPomodoro (Op.tick 1501) scenarioB)) := by
  constructor
  · exact ⟨_, rfl, (c10_total_monotone Op.reset App.default _ rfl).1⟩
  · exact ⟨_, rfl, (c10_total_monotone (Op.tick 1501) scenarioB _ rfl).2.2⟩

/-! ### C4 -/

theorem if_mode_eq_long (c : Prop) [Decidable c] :
    ((if c then Mode.LongBreak else Mode.ShortBreak) = Mode.LongBreak) ↔ c := by
  split <;> simp [*]

theorem if_mode_eq_short (c : Prop) [Decidable c] :
    ((if c then Mode.LongBreak else Mode.ShortBreak) = Mode.ShortBreak) ↔ ¬ c := by
  split <;> simp [*]

/-- C4: `next_mode` returns the mode that was current when it was
called; from `Pomodoro` it increments the session total, increments the
active task's pomodoro count when an active task exists, and moves to
`LongBreak` exactly when the incremented total is divisible by 4 (so,
from a fresh counter, on the 4th completion — prior totals 0, 1, 2 give
`ShortBreak`, prior total 3 gives `LongBreak`); from a break it moves to
`Pomodoro`; it then resets the timer to the new mode's duration and sets
the state to `Running` iff an active, uncompleted task exists. -/
theorem c4_next_mode (s : App)
    (hv : ∀ j, s.activeTaskIndex = some j → j < s.tasks.length) :
    ∃ s', s.nextMode = some (s.mode, s') ∧
      (s.mode = Mode.Pomodoro →
        s'.pomodorosCompletedTotal = s.pomodorosCompletedTotal + 1 ∧
        (s'.mode = Mode.LongBreak ↔ (s.pomodorosCompletedTotal + 1) % 4 = 0) ∧
        (s'.mode = Mode.ShortBreak ↔ ¬ (s.pomodorosCompletedTotal + 1) % 4 = 0) ∧
        (∀ i t, s.activeTaskIndex = some i → s.tasks.get? i = some t →
          ∃ t', s'.tasks.get? i = some t' ∧ t'.pomodoros = t.pomodoros + 1) ∧
        (s.pomodorosCompletedTotal % 4 = 3 → s'.mode = Mode.LongBreak) ∧
        (¬ s.pomodorosCompletedTotal % 4 = 3 → s'.mode = Mode.ShortBreak)) ∧
      (s.mode ≠ Mode.Pomodoro →
        s'.mode = Mode.Pomodoro ∧
        s'.pomodorosCompletedTotal = s.pomodorosCompletedTotal) ∧
      s'.timeRemaining = s'.mode.duration s.settings ∧
      (s'.state = TimerState.Running ↔
        ∃ i t, s.activeTaskIndex = some i ∧ s.tasks.get? i = some t ∧
          t.completed = false) := by
  obtain ⟨m, st, tr, tot, tasks, act, im, ci, ctls, stg, sel⟩ := s
  simp only at hv ⊢
  cases act with
  | none =>
    cases m
    · refine ⟨_, rfl, ?_, ?_, rfl, ?_⟩
      · intro _
        refine ⟨rfl, if_mode_eq_long _, if_mode_eq_short _, ?_, ?_, ?_⟩
        · intro i2 t2 hi2
          exact absurd hi2 (by simp)
        · intro h4
          have h4b : tot % 4 = 3 := h4
          exact (if_mode_eq_long _).mpr (show (tot + 1) % 4 = 0 by omega)
        · intro h4
          have h4b : ¬ tot % 4 = 3 := h4
          exact (if_mode_eq_short _).mpr (show ¬ (tot + 1) % 4 = 0 by omega)
      · intro hne
        exact absurd rfl hne
      · simp [App.nextMode, App.resetTimer]
    · refine ⟨_, rfl, ?_, fun _ => ⟨rfl, rfl⟩, rfl, ?_⟩
      · intro hp
        exact absurd hp (by simp)
      · simp [App.nextMode, App.resetTimer]
    · refine ⟨_, rfl, ?_, fun _ => ⟨rfl, rfl⟩, rfl, ?_⟩
      · intro hp
        exact absurd hp (by simp)
      · simp [App.nextMode, App.resetTimer]
  | some i =>
    have hlt := hv i rfl
    obtain ⟨t, ht⟩ : ∃ t, tasks.get? i = some t :=
      ⟨tasks.get ⟨i, hlt⟩, List.get?_eq_get hlt⟩
    have htc := fun (b : Bool) (hb : t.completed = b) => hb
    cases m
    · have hmod : (modifyTaskAt (fun t => { t with pomodoros := t.pomodoros + 1 }) tasks i).get? i
          = some { t with pomodoros := t.pomodoros + 1 } := by
        rw [get?_modifyTaskAt_self, ht]
        rfl
      cases hc : t.completed
      · simp only [App.nextMode, App.resetTimer, reduceIte, reduceCtorEq, if_false, if_true,
          eq_self_iff_true, Bool.not_false, Bool.not_true, hmod, hc]
        refine ⟨_, rfl, ?_, ?_, rfl, ?_⟩
        · intro _
          refine ⟨rfl, if_mode_eq_long _, if_mode_eq_short _, ?_, ?_, ?_⟩
          · intro i2 t2 hi2 ht2
            cases hi2
            rw [ht] at ht2
            cases ht2
            exact ⟨_, hmod, rfl⟩
          · intro h4
            have h4b : tot % 4 = 3 := h4
            exact (if_mode_eq_long _).mpr (show (tot + 1) % 4 = 0 by omega)
          · intro h4
            have h4b : ¬ tot % 4 = 3 := h4
            exact (if_mode_eq_short _).mpr (show ¬ (tot + 1) % 4 = 0 by omega)
        · intro hne
          exact absurd rfl hne
        · exact ⟨fun _ => ⟨i, t, rfl, ht, hc⟩, fun _ => rfl⟩
      · simp only [App.nextMode, App.resetTimer, reduceIte, reduceCtorEq, if_false, if_true,
          eq_self_iff_true, Bool.not_false, Bool.not_true, hmod, hc]
        refine ⟨_, rfl, ?_, ?_, rfl, ?_⟩
        · intro _
          refine ⟨rfl, if_mode_eq_long _, if_mode_eq_short _, ?_, ?_, ?_⟩
          · intro i2 t2 hi2 ht2
            cases hi2
            rw [ht] at ht2
            cases ht2
            exact ⟨_, hmod, rfl⟩
          · intro h4
            have h4b : tot % 4 = 3 := h4
            exact (if_mode_eq_long _).mpr (show (tot + 1) % 4 = 0 by omega)
          · intro h4
            have h4b : ¬ tot % 4 = 3 := h4
            exact (if_mode_eq_short _).mpr (show ¬ (tot + 1) % 4 = 0 by omega)
        · intro hne
          exact absurd rfl hne
        · constructor
          · intro hcon
            exact absurd hcon (by simp)
          · rintro ⟨i2, t2, hi2, ht2, hcf2⟩
            cases hi2
            rw [ht] at ht2
            cases ht2
            rw [hc] at hcf2
            exact Bool.noConfusion hcf2
    · cases hc : t.completed
      · simp only [App.nextMode, App.resetTimer, reduceIte, reduceCtorEq, if_false, if_true,
          eq_self_iff_true, Bool.not_false, Bool.not_true, ht, hc]
        refine ⟨_, rfl, ?_, fun _ => ⟨rfl, rfl⟩, rfl, ?_⟩
        · intro hp
          exact absurd hp (by simp)
        · exact ⟨fun _ => ⟨i, t, rfl, ht, hc⟩, fun _ => rfl⟩
      · simp only [App.nextMode, App.resetTimer, reduceIte, reduceCtorEq, if_false, if_true,
          eq_self_iff_true, Bool.not_false, Bool.not_true, ht, hc]
        refine ⟨_, rfl, ?_, fun _ => ⟨rfl, rfl⟩, rfl, ?_⟩
        · intro hp
          exact absurd hp (by simp)
        · constructor
          · intro hcon
            exact absurd hcon (by simp)
          · rintro ⟨i2, t2, hi2, ht2, hcf2⟩
            cases hi2
            rw [ht] at ht2
            cases ht2
            rw [hc] at hcf2
            exact Bool.noConfusion hcf2
    · cases hc : t.completed
      · simp only [App.nextMode, App.resetTimer, reduceIte, reduceCtorEq, if_false, if_true,
          eq_self_iff_true, Bool.not_false, Bool.not_true, ht, hc]
        refine ⟨_, rfl, ?_, fun _ => ⟨rfl, rfl⟩, rfl, ?_⟩
        · intro hp
          exact absurd hp (by simp)
        · exact ⟨fun _ => ⟨i, t, rfl, ht, hc⟩, fun _ => rfl⟩
      · simp only [App.nextMode, App.resetTimer, reduceIte, reduceCtorEq, if_false, if_true,
          eq_self_iff_true, Bool.not_false, Bool.not_true, ht, hc]
        refine ⟨_, rfl, ?_, fun _ => ⟨rfl, rfl⟩, rfl, ?_⟩
        · intro hp
          exact absurd hp (by simp)
        · constructor
          · intro hcon
            exact absurd hcon (by simp)
          · rintro ⟨i2, t2, hi2, ht2, hcf2⟩
            cases hi2
            rw [ht] at ht2
            cases ht2
            rw [hc] at hcf2
            exact Bool.noConfusion hcf2

/-- C4 witness: the theorem applied to Scenario B; one uncompleted
active task, fresh counter. -/
theorem c4_witness :
    (∀ j, scenarioB.activeTaskIndex = some j → j < scenarioB.tasks.length) ∧
    ∃ s', scenarioB.nextMode = some (scenarioB.mode, s') := by
  refine ⟨?_, ?_⟩
  · intro j hj
    cases hj
    decide
  · obtain ⟨s', h1, -⟩ := c4_next_mode scenarioB
      (fun j hj => by cases hj; decide)
    exact ⟨s', h1⟩

/-! ### Navigation: soundness of the selected index -/

theorem nextTask_active_sound (s : App) (i : Nat)
    (h : s.nextTask.activeTaskIndex = some i) :
    ∃ t, s.tasks.get? i = some t ∧ t.completed = false := by
  unfold App.nextTask at h
  dsimp only at h
  by_cases hE : (uncompletedIndices s.tasks).isEmpty
  · rw [if_pos hE] at h
    simp only at h
    exact Option.noConfusion h
  · rw [if_neg hE] at h
    simp only at h
    have hlen : 0 < (uncompletedIndices s.tasks).length :=
      List.length_pos.mpr (List.isEmpty_eq_false.mp (Bool.of_not_eq_true hE))
    have heq := Option.some.inj h
    cases hf : List.findIdx? (fun j => j == s.activeTaskIndex.getD 0)
        (uncompletedIndices s.tasks) with
    | none =>
      rw [hf] at heq
      have hmem : (uncompletedIndices s.tasks).getD 0 0 ∈ uncompletedIndices s.tasks :=
        getD_mem_of_lt hlen
      rw [heq] at hmem
      exact mem_uncompletedIndices.mp hmem
    | some j =>
      rw [hf] at heq
      have hmem : (uncompletedIndices s.tasks).getD ((j + 1) % (uncompletedIndices s.tasks).length) 0
          ∈ uncompletedIndices s.tasks :=
        getD_mem_of_lt (Nat.mod_lt _ hlen)
      rw [heq] at hmem
      exact mem_uncompletedIndices.mp hmem

theorem previousTask_active_sound (s : App) (i : Nat)
    (h : s.previousTask.activeTaskIndex = some i) :
    ∃ t, s.tasks.get? i = some t ∧ t.completed = false := by
  unfold App.previousTask at h
  dsimp only at h
  by_cases hE : (uncompletedIndices s.tasks).isEmpty
  · rw [if_pos hE] at h
    simp only at h
    exact Option.noConfusion h
  · rw [if_neg hE] at h
    simp only at h
    have hlen : 0 < (uncompletedIndices s.tasks).length :=
      List.length_pos.mpr (List.isEmpty_eq_false.mp (Bool.of_not_eq_true hE))
    have heq := Option.some.inj h
    have hpos : (List.findIdx? (fun j => j == s.activeTaskIndex.getD 0)
        (uncompletedIndices s.tasks)).getD 0 < (uncompletedIndices s.tasks).length := by
      cases hf : List.findIdx? (fun j => j == s.activeTaskIndex.getD 0)
          (uncompletedIndices s.tasks) with
      | none => simpa using hlen
      | some j => simpa using findIdx?_lt_length hf
    by_cases h0 : (List.findIdx? (fun j => j == s.activeTaskIndex.getD 0)
        (uncompletedIndices s.tasks)).getD 0 = 0
    · rw [if_pos h0] at heq
      have hmem : (uncompletedIndices s.tasks).getD
          ((uncompletedIndices s.tasks).length - 1) 0 ∈ uncompletedIndices s.tasks :=
        getD_mem_of_lt (by omega)
      rw [heq] at hmem
      exact mem_uncompletedIndices.mp hmem
    · rw [if_neg h0] at heq
      have hmem : (uncompletedIndices s.tasks).getD
          ((List.findIdx? (fun j => j == s.activeTaskIndex.getD 0)
            (uncompletedIndices s.tasks)).getD 0 - 1) 0 ∈ uncompletedIndices s.tasks :=
        getD_mem_of_lt (by omega)
      rw [heq] at hmem
      exact mem_uncompletedIndices.mp hmem

/-! ### More projection lemmas (fields untouched by each operation) -/

theorem tasks_nextTask (s : App) : s.nextTask.tasks = s.tasks := by
  unfold App.nextTask
  dsimp only
  split <;> rfl

theorem tasks_previousTask (s : App) : s.previousTask.tasks = s.tasks := by
  unfold App.previousTask
  dsimp only
  split <;> rfl

theorem active_tasks_nextCompletedTask (s : App) :
    s.nextCompletedTask.activeTaskIndex = s.activeTaskIndex ∧
    s.nextCompletedTask.tasks = s.tasks := by
  unfold App.nextCompletedTask
  dsimp only
  repeat' split
  all_goals exact ⟨rfl, rfl⟩

theorem active_tasks_previousCompletedTask (s : App) :
    s.previousCompletedTask.activeTaskIndex = s.activeTaskIndex ∧
    s.previousCompletedTask.tasks = s.tasks := by
  unfold App.previousCompletedTask
  dsimp only
  repeat' split
  all_goals exact ⟨rfl, rfl⟩

theorem active_tasks_previousSetting (s : App) :
    s.previousSetting.activeTaskIndex = s.activeTaskIndex ∧
    s.previousSetting.tasks = s.tasks := by
  unfold App.previousSetting
  split <;> exact ⟨rfl, rfl⟩

theorem active_tasks_modifySetting (b : Bool) (s : App) :
    (s.modifySetting b).activeTaskIndex = s.activeTaskIndex ∧
    (s.modifySetting b).tasks = s.tasks := by
  unfold App.modifySetting
  dsimp only
  repeat' split
  all_goals exact ⟨rfl, rfl⟩

/-- C6 amended: `next_task` and `previous_task` move through the
uncompleted subsequence with wraparound, and set the selection to `None`
when no uncompleted task exists; but when the current selection is stale
(not a member of the uncompleted subsequence), `next_task` resets to the
FIRST uncompleted task while `previous_task` resets to the LAST
uncompleted task (it treats the stale selection as position 0 and wraps
backwards). -/
theorem c6_navigation_amended (s : App) :
    (uncompletedIndices s.tasks = [] →
      s.nextTask.activeTaskIndex = none ∧
      s.previousTask.activeTaskIndex = none) ∧
    (∀ a, s.activeTaskIndex = some a → a ∉ uncompletedIndices s.tasks →
      uncompletedIndices s.tasks ≠ [] →
      s.nextTask.activeTaskIndex = some ((uncompletedIndices s.tasks).getD 0 0) ∧
      s.previousTask.activeTaskIndex =
        some ((uncompletedIndices s.tasks).getD
          ((uncompletedIndices s.tasks).length - 1) 0)) ∧
    (uncompletedIndices s.tasks ≠ [] →
      s.activeTaskIndex =
        some ((uncompletedIndices s.tasks).getD
          ((uncompletedIndices s.tasks).length - 1) 0) →
      s.nextTask.activeTaskIndex = some ((uncompletedIndices s.tasks).getD 0 0)) ∧
    (uncompletedIndices s.tasks ≠ [] →
      s.activeTaskIndex = some ((uncompletedIndices s.tasks).getD 0 0) →
      s.previousTask.activeTaskIndex =
        some ((uncompletedIndices s.tasks).getD
          ((uncompletedIndices s.tasks).length - 1) 0)) := by
  refine ⟨?_, ?_, ?_, ?_⟩
  · intro hnil
    have hE : (uncompletedIndices s.tasks).isEmpty = true := by
      simp [List.isEmpty_iff, hnil]
    constructor
    · unfold App.nextTask
      dsimp only
      rw [if_pos hE]
    · unfold App.previousTask
      dsimp only
      rw [if_pos hE]
  · intro a ha hnm hne
    have hE : (uncompletedIndices s.tasks).isEmpty = false := List.isEmpty_eq_false.mpr hne
    have hfi : List.findIdx? (fun j => j == a) (uncompletedIndices s.tasks) = none :=
      findIdx?_beq_of_not_mem hnm
    constructor
    · unfold App.nextTask
      dsimp only
      rw [if_neg (by simp [hE])]
      simp only [ha, Option.getD_some, hfi]
    · unfold App.previousTask
      dsimp only
      rw [if_neg (by simp [hE])]
      simp only [ha, Option.getD_some, hfi, Option.getD_none, if_pos rfl, if_true]
  · intro hne hlast
    have hE : (uncompletedIndices s.tasks).isEmpty = false := List.isEmpty_eq_false.mpr hne
    have hlen : 0 < (uncompletedIndices s.tasks).length := List.length_pos.mpr hne
    have hfi := findIdx?_beq_getD (pairwise_lt_uncompletedIndices s.tasks)
      (k := (uncompletedIndices s.tasks).length - 1) (by omega)
    unfold App.nextTask
    dsimp only
    rw [if_neg (by simp [hE])]
    simp only [hlast, Option.getD_some, hfi]
    rw [Nat.sub_add_cancel hlen, Nat.mod_self]
  · intro hne hfirst
    have hE : (uncompletedIndices s.tasks).isEmpty = false := List.isEmpty_eq_false.mpr hne
    have hlen : 0 < (uncompletedIndices s.tasks).length := List.length_pos.mpr hne
    have hfi := findIdx?_beq_getD (pairwise_lt_uncompletedIndices s.tasks)
      (k := 0) hlen
    unfold App.previousTask
    dsimp only
    rw [if_neg (by simp [hE])]
    simp only [hfirst, Option.getD_some, hfi, if_pos rfl, if_true]

/-- C6 witness: the amended theorem applied to the stale-selection state
(selection on the completed task 0, uncompleted tasks at 1 and 2):
`next_task` resets to the first uncompleted task 1, `previous_task` to
the last uncompleted task 2. -/
theorem c6_witness :
    staleSelectionApp.activeTaskIndex = some 0 ∧
    (0 : Nat) ∉ uncompletedIndices staleSelectionApp.tasks ∧
    uncompletedIndices staleSelectionApp.tasks ≠ [] ∧
    staleSelectionApp.nextTask.activeTaskIndex =
      some ((uncompletedIndices staleSelectionApp.tasks).getD 0 0) ∧
    staleSelectionApp.previousTask.activeTaskIndex =
      some ((uncompletedIndices staleSelectionApp.tasks).getD
        ((uncompletedIndices staleSelectionApp.tasks).length - 1) 0) := by
  have h := (c6_navigation_amended staleSelectionApp).2.1 0 rfl (by decide) (by decide)
  exact ⟨rfl, by decide, by decide, h.1, h.2⟩

/-! ### C7 -/

/-- Two tasks, a completed first task selected in the completed-list
cursor, with the active selection on the uncompleted second task. -/
def deleteScenarioApp : App :=
  { App.default with
      tasks := [mkTask "a" true, mkTask "b" false]
      activeTaskIndex := some 1
      completedTaskListState := some 0 }

/-- C7: with the completed-list cursor on position `k` of the
order-preserving filtered list of completed tasks, whose master index is
`j`, `delete_selected_completed_task` removes exactly the task at `j`
(a completed task); an active index past `j` is decremented by one and
still references the same logical task; the completed-selection cursor
is cleared; all other tasks and the timer fields are unchanged. -/
theorem c7_delete_selected (s : App) (k j : Nat)
    (hsel : s.completedTaskListState = some k)
    (hj : (completedIndices s.tasks).get? k = some j) :
    s.deleteSelectedCompletedTask.tasks = s.tasks.eraseIdx j ∧
    (∃ t, s.tasks.get? j = some t ∧ t.completed = true) ∧
    s.deleteSelectedCompletedTask.completedTaskListState = none ∧
    (∀ m, m < j → s.deleteSelectedCompletedTask.tasks.get? m = s.tasks.get? m) ∧
    (∀ m, j ≤ m → s.deleteSelectedCompletedTask.tasks.get? m = s.tasks.get? (m + 1)) ∧
    (∀ a, s.activeTaskIndex = some a →
      (j < a →
        s.deleteSelectedCompletedTask.activeTaskIndex = some (a - 1) ∧
        s.deleteSelectedCompletedTask.tasks.get? (a - 1) = s.tasks.get? a) ∧
      (a ≤ j → s.deleteSelectedCompletedTask.activeTaskIndex = some a)) ∧
    s.deleteSelectedCompletedTask.mode = s.mode ∧
    s.deleteSelectedCompletedTask.state = s.state ∧
    s.deleteSelectedCompletedTask.timeRemaining = s.timeRemaining ∧
    s.deleteSelectedCompletedTask.pomodorosCompletedTotal = s.pomodorosCompletedTotal ∧
    s.deleteSelectedCompletedTask.settings = s.settings := by
  have hd : s.deleteSelectedCompletedTask =
      { s with tasks := s.tasks.eraseIdx j,
               activeTaskIndex :=
                 match s.activeTaskIndex with
                 | some a => if a > j then some (a - 1) else some a
                 | none => none,
               completedTaskListState := none } := by
    unfold App.deleteSelectedCompletedTask
    simp only [hsel, hj]
  have herase : ∀ m, (s.tasks.eraseIdx j).get? m =
      if m < j then s.tasks.get? m else s.tasks.get? (m + 1) := by
    intro m
    rw [List.get?_eq_getElem?, List.get?_eq_getElem?, List.getElem?_eraseIdx]
    split
    · rfl
    · rw [← List.get?_eq_getElem?, List.get?_eq_getElem?]
  refine ⟨by rw [hd], ?_, by rw [hd], ?_, ?_, ?_, by rw [hd], by rw [hd], by rw [hd],
    by rw [hd], by rw [hd]⟩
  · exact mem_completedIndices.mp (List.get?_mem hj)
  · intro m hm
    rw [hd]
    simp only [herase, if_pos hm]
  · intro m hm
    rw [hd]
    simp only [herase, if_neg (by omega : ¬ m < j)]
  · intro a ha
    constructor
    · intro hja
      rw [hd]
      simp only [ha]
      rw [if_pos hja]
      refine ⟨rfl, ?_⟩
      simp only [herase, if_neg (by omega : ¬ a - 1 < j)]
      have hsucc : a - 1 + 1 = a := by omega
      rw [hsucc]
    · intro haj
      rw [hd]
      simp only [ha]
      rw [if_neg (by omega : ¬ a > j)]

/-- C7 witness: the theorem applied to a concrete state where the
completed predecessor (master index 0) of the active uncompleted task
(master index 1) is deleted, shifting the active index to 0. -/
theorem c7_witness :
    deleteScenarioApp.completedTaskListState = some 0 ∧
    (completedIndices deleteScenarioApp.tasks).get? 0 = some 0 ∧
    deleteScenarioApp.deleteSelectedCompletedTask.tasks =
      deleteScenarioApp.tasks.eraseIdx 0 ∧
    deleteScenarioApp.deleteSelectedCompletedTask.activeTaskIndex = some 0 := by
  have h := c7_delete_selected deleteScenarioApp 0 0 rfl (by decide)
  exact ⟨rfl, by decide, h.1, ((h.2.2.2.2.2.1 1 rfl).1 (by decide)).1⟩

/-! ### C1: preservation of the index bound by every operation -/

theorem step_preserves_active_bounded (op : Op) (s s' : App)
    (h : step op s = some s')
    (hb : ∀ i, s.activeTaskIndex = some i → i ≤ s.tasks.length) :
    ∀ i, s'.activeTaskIndex = some i → i ≤ s'.tasks.length := by
  cases op with
  | tick e =>
    simp only [step] at h
    cases hst : s.state with
    | Paused =>
      simp only [App.tick, hst, Option.map_some'] at h
      cases h
      exact hb
    | Running =>
      by_cases hle : e ≤ s.timeRemaining
      · simp only [App.tick, hst, if_pos hle] at h
        cases hact : s.activeTaskIndex <;> simp only [hact, Option.map_some'] at h <;> cases h
        · exact fun i hi => Option.noConfusion hi
        · intro i hi
          obtain rfl := Option.some.inj hi
          have := hb _ hact
          simpa only [length_modifyTaskAt] using this
      · simp only [App.tick, hst, if_neg hle, Option.map_map] at h
        cases hnm : App.nextMode { s with state := TimerState.Running, timeRemaining := 0 } with
        | none =>
          rw [hnm] at h
          exact Option.noConfusion h
        | some r =>
          rw [hnm] at h
          simp only [Option.map_some', Function.comp] at h
          cases h
          have hf := nextMode_frame (show App.nextMode { s with state := TimerState.Running, timeRemaining := 0 } = some (r.1, r.2) from hnm)
          intro i hi
          rw [hf.2.1] at hi
          rw [hf.2.2.1]
          exact hb i hi
  | toggle =>
    simp only [step, App.toggleTimer] at h
    repeat' split at h
    all_goals cases h
    all_goals exact fun i hi => hb i hi
  | reset =>
    simp only [step] at h
    cases h
    exact hb
  | setMode m =>
    simp only [step] at h
    cases h
    exact hb
  | addTask name now =>
    simp only [step] at h
    cases h
    unfold App.submitTask
    dsimp only
    split
    · exact fun i hi => hb i hi
    · split
      · intro i hi
        cases hi
        exact Nat.zero_le _
      · intro i hi
        have := hb i hi
        simp only [List.length_append, List.length_cons, List.length_nil]
        omega
  | complete now =>
    simp only [step] at h
    cases h
    unfold App.completeActiveTask
    dsimp only
    repeat' split
    all_goals intro i hi
    all_goals first
      | exact hb i hi
      | (have hbi := hb i hi
         simp only [App.resetTimer, List.length_set]
         exact hbi)
  | nextTask =>
    simp only [step] at h
    cases h
    intro i hi
    obtain ⟨t, ht, -⟩ := nextTask_active_sound s i hi
    have := get?_some_lt ht
    rw [tasks_nextTask]
    omega
  | previousTask =>
    simp only [step] at h
    cases h
    intro i hi
    obtain ⟨t, ht, -⟩ := previousTask_active_sound s i hi
    have := get?_some_lt ht
    rw [tasks_previousTask]
    omega
  | moveUp =>
    simp only [step, App.moveActiveTaskUp] at h
    repeat' split at h
    all_goals cases h
    all_goals first
      | exact fun i hi => hb i hi
      | (intro i hi
         cases hi
         rw [length_swapAt]
         omega)
  | moveDown =>
    simp only [step, App.moveActiveTaskDown] at h
    repeat' split at h
    all_goals cases h
    all_goals first
      | exact fun i hi => hb i hi
      | (intro i hi
         cases hi
         rw [length_swapAt]
         omega)
  | nextCompleted =>
    simp only [step] at h
    cases h
    intro i hi
    have e := active_tasks_nextCompletedTask s
    rw [e.1] at hi
    rw [e.2]
    exact hb i hi
  | previousCompleted =>
    simp only [step] at h
    cases h
    intro i hi
    have e := active_tasks_previousCompletedTask s
    rw [e.1] at hi
    rw [e.2]
    exact hb i hi
  | deleteCompleted =>
    simp only [step] at h
    cases h
    unfold App.deleteSelectedCompletedTask
    dsimp only
    cases hsel : s.completedTaskListState with
    | none => exact hb
    | some k =>
      cases hj : (completedIndices s.tasks).get? k with
      | none =>
        simp only [hj]
        exact hb
      | some j =>
        simp only [hj]
        intro i hi
        have hjlt : j < s.tasks.length := mem_completedIndices_lt (List.get?_mem hj)
        have hi2 : (match s.activeTaskIndex with
            | some a => if a > j then some (a - 1) else some a
            | none => none) = some i := hi
        show i ≤ (s.tasks.eraseIdx j).length
        rw [List.length_eraseIdx, if_pos hjlt]
        cases hact : s.activeTaskIndex with
        | none =>
          rw [hact] at hi2
          dsimp only at hi2
          exact Option.noConfusion hi2
        | some a =>
          rw [hact] at hi2
          dsimp only at hi2
          have hba := hb a hact
          by_cases hgt : a > j
          · rw [if_pos hgt] at hi2
            cases hi2
            omega
          · rw [if_neg hgt] at hi2
            cases hi2
            omega
  | nextSetting =>
    simp only [step] at h
    cases h
    exact hb
  | previousSetting =>
    simp only [step] at h
    cases h
    intro i hi
    have e := active_tasks_previousSetting s
    rw [e.1] at hi
    rw [e.2]
    exact hb i hi
  | modifySetting b =>
    simp only [step] at h
    cases h
    intro i hi
    have e := active_tasks_modifySetting b s
    rw [e.1] at hi
    rw [e.2]
    exact hb i hi

/-- C1 amended: the claimed invariant does not hold — after
`complete_active_task`, `active_task_index` keeps pointing at the
now-completed task (see the counterexample), and after deleting that
task it can even sit one past the end of the list.  What does hold for
every panic-free sequence of driver-facing operations from the initial
state is the weaker bound `active_task_index ≤ tasks.length`; and the
claimed `completed == false` property is re-established by navigation:
after `next_task` or `previous_task` the selection is `None` or points
at an uncompleted task. -/
theorem c1_active_index_amended (ops : List Op) (s : App)
    (h : runOps ops App.default = some s) :
    (∀ i, s.activeTaskIndex = some i → i ≤ s.tasks.length) ∧
    (∀ i, s.nextTask.activeTaskIndex = some i →
      ∃ t, s.tasks.get? i = some t ∧ t.completed = false) ∧
    (∀ i, s.previousTask.activeTaskIndex = some i →
      ∃ t, s.tasks.get? i = some t ∧ t.completed = false) := by
  refine ⟨?_, fun i hi => nextTask_active_sound s i hi,
    fun i hi => previousTask_active_sound s i hi⟩
  have main : ∀ (l : List Op) (t : App),
      (∀ i, t.activeTaskIndex = some i → i ≤ t.tasks.length) →
      runOps l t = some s →
      ∀ i, s.activeTaskIndex = some i → i ≤ s.tasks.length := by
    intro l
    induction l with
    | nil =>
      intro t hbt hrun
      simp only [runOps] at hrun
      cases hrun
      exact hbt
    | cons op rest ih =>
      intro t hbt hrun
      simp only [runOps] at hrun
      cases hstep : step op t with
      | none =>
        rw [hstep] at hrun
        exact Option.noConfusion hrun
      | some t2 =>
        rw [hstep] at hrun
        exact ih t2 (step_preserves_active_bounded op t t2 hstep hbt) hrun
  exact main ops App.default (fun i hi => Option.noConfusion hi) h

/-- C1 witness: the amended theorem applied to the one-operation
sequence that adds a single task. -/
theorem c1_witness :
    ∃ s, runOps [Op.addTask "a" 0] App.default = some s ∧
      (∀ i, s.activeTaskIndex = some i → i ≤ s.tasks.length) := by
  refine ⟨_, rfl, ?_⟩
  exact (c1_active_index_amended [Op.addTask "a" 0] _ rfl).1

end Pomodorust
